import Mathlib

/-!
Verification of the Arena.ai-Plus model-name matching core and value scorer.

The definitions below are shallow embeddings of the functions in
`src/content.js`: the name-normalization pipeline (`ModelMatcher.normalizeModelName`),
the derived canonicalizers (`_stripSuffixes`, `_stripDates`, `_stripThinking`),
the ordered fallback matcher (`_findMatchInMap`, `findMatch`), the three
provider adapters (`_buildHeliconeMap`, `_buildLiteLLMMap`, `_buildOpenRouterMap`)
and the value scorer (`calculateBangForBuck`).

Modelling conventions:
* JS strings are modelled as `List Char` (wrapped in `String` at the API edge);
  the JS regex replacements of the source are implemented as direct recursive
  scanners with the same left-to-right, resume-after-match semantics.
* Character classes follow the ASCII ranges of the JS regexes (`\d`, `\w`);
  `toLowerCase` is modelled by `Char.toLower` (ASCII case mapping) and the JS
  whitespace class `\s` by its ASCII members plus NBSP.
* JS values reaching the adapters are modelled by `Json`/`JsVal` (with a
  constructor for `undefined`); a JS `TypeError` (member access on
  null/undefined, iterating a non-iterable) is modelled by `Except.error ()`.
* JS numbers are modelled as `ℚ` in the adapters and as `ℝ` in the scorer
  (where `Math.log` and `Math.pow` appear); `NaN` does not arise on the inputs
  considered.
-/

namespace ArenaPlus

/-! ## Character classes used by the JS regexes -/

/-- The separator class `[-_]` of the version-normalization regex. -/
def isVerSep (c : Char) : Bool := c == '-' || c == '_'

/-- The class `[.-]` that precedes strippable suffix tokens. -/
def isDotDash (c : Char) : Bool := c == '.' || c == '-'

/-- JS `\w` word characters: `[A-Za-z0-9_]`. -/
def isWordChar (c : Char) : Bool := c.isAlphanum || c == '_'

/-- JS `\s` whitespace, modelled by its ASCII members plus NBSP. -/
def isWsChar (c : Char) : Bool :=
  c == ' ' || c == '\t' || c == '\n' || c == '\r' ||
  c == '\x0b' || c == '\x0c' || c == ' '

/-- Head-of-list digit test, used for the `(?![0-9])` lookahead. -/
def digitHead : List Char → Bool
  | [] => false
  | c :: _ => c.isDigit

/-! ## `normalizeModelName` pipeline (content.js lines 415-424)

`name.toLowerCase().replace(/%3a/gi, ':')
  .replace(/(^|[^0-9])(\d)[-_](\d)(?![0-9])/g, '$1$2.$3')
  .replace(/\s+/g, '-').trim()` -/

/-- Does `%3a` match at the head of the list? -/
def pre3a : List Char → Bool
  | [] => false
  | c :: rest => c == '%' && rest.take 2 == ['3', 'a']

/-- Global replacement of the literal `%3a` by `:` (the input is already
lowercased, so the `/i` flag adds nothing).  The fuel, instantiated with the
list length (an upper bound on scan steps), keeps the scanner structurally
recursive. -/
def rep3aGo : Nat → List Char → List Char
  | 0, l => l
  | _ + 1, [] => []
  | fuel + 1, c :: rest =>
    if pre3a (c :: rest) then ':' :: rep3aGo fuel (rest.drop 2)
    else c :: rep3aGo fuel rest

def rep3a (l : List Char) : List Char := rep3aGo l.length l

/-- Does `(\d)[-_](\d)(?![0-9])` match at the head of the list? -/
def vpCore : List Char → Bool
  | d1 :: s :: d2 :: rest => d1.isDigit && isVerSep s && d2.isDigit && !(digitHead rest)
  | _ => false

/-- Scanner for `([^0-9])(\d)[-_](\d)(?![0-9])`: at each position the current
char serves as the `[^0-9]` group; on a match the separator becomes `.` and
scanning resumes after the second digit, as the JS engine does. -/
def vfixGo : Nat → List Char → List Char
  | 0, l => l
  | _ + 1, [] => []
  | fuel + 1, c :: rest =>
    if !c.isDigit && vpCore rest then
      c :: rest.headD ' ' :: '.' :: (rest.drop 2).headD ' ' :: vfixGo fuel (rest.drop 3)
    else c :: vfixGo fuel rest

def vfix (l : List Char) : List Char := vfixGo l.length l

/-- Global `(^|[^0-9])(\d)[-_](\d)(?![0-9])` → `$1$2.$3`: the `^` alternative
is only available at position 0; afterwards `vfix` handles the `[^0-9]` form. -/
def versionFix (l : List Char) : List Char :=
  match l with
  | d1 :: s :: d2 :: rest =>
    if d1.isDigit && isVerSep s && d2.isDigit && !(digitHead rest) then
      d1 :: '.' :: d2 :: vfix rest
    else vfix l
  | _ => vfix l

/-- Global `\s+` → `-`: the flag records whether we are inside a whitespace
run whose `-` has already been emitted. -/
def wsGo : List Char → Bool → List Char
  | [], _ => []
  | c :: rest, inRun =>
    if isWsChar c then
      if inRun then wsGo rest true else '-' :: wsGo rest true
    else c :: wsGo rest false

def wsFix (l : List Char) : List Char := wsGo l false

/-- JS `String.prototype.trim`. -/
def trimWs (l : List Char) : List Char :=
  ((l.dropWhile isWsChar).reverse.dropWhile isWsChar).reverse

/-- The full normalization pipeline on char lists. -/
def normalizeL (l : List Char) : List Char :=
  trimWs (wsFix (versionFix (rep3a (l.map Char.toLower))))

namespace ModelMatcher

/-- `ModelMatcher.normalizeModelName` (content.js 415-424); the argument is an
`Option String` so that a JS `null`/`undefined` model name (falsy, mapped to
`''` by the source's `if (!name) return ''`) is representable. -/
def normalizeModelName (name : Option String) : String :=
  match name with
  | none => ""
  | some s => if s = "" then "" else ⟨normalizeL s.data⟩

end ModelMatcher

/-! ## Derived canonicalizers (content.js 441-469)

Each JS global `replace` is a left-to-right scanner; on a match it consumes
the matched text and resumes after it.  The scanners that skip a variable
number of characters take a fuel argument (instantiated with the list length,
an upper bound on the number of scan steps, so fuel never actually runs out);
this keeps them structurally recursive and kernel-reducible. -/

/-- Boundary test for `(\b|$)` after a token ending in a word character:
satisfied iff the next char is absent or not a word char. -/
def bAfter : List Char → Bool
  | [] => true
  | c :: _ => !isWordChar c

/-- Case-insensitive match of a literal token against the head of `l`. -/
def tokHeadCI (l : List Char) (tok : List Char) : Bool :=
  (l.take tok.length).map Char.toLower == tok

/-- Match `(preview|beta|latest|v\d+)(\b|$)` at the head of `l`
(case-insensitive, as the `/i` flag demands); returns the number of chars the
token consumes (the boundary group is zero-width). -/
def sufTokLen (l : List Char) : Option Nat :=
  if tokHeadCI l ['p','r','e','v','i','e','w'] && bAfter (l.drop 7) then some 7
  else if tokHeadCI l ['b','e','t','a'] && bAfter (l.drop 4) then some 4
  else if tokHeadCI l ['l','a','t','e','s','t'] && bAfter (l.drop 6) then some 6
  else
    match l with
    | c :: rest =>
      let ds := rest.takeWhile Char.isDigit
      if Char.toLower c == 'v' && ds.length > 0 && bAfter (rest.drop ds.length) then
        some (1 + ds.length)
      else none
    | [] => none

/-- Scanner for the global `/[.-](preview|beta|latest|v\d+)(\b|$)/gi` → `''`. -/
def sufGo : Nat → List Char → List Char
  | 0, l => l
  | _ + 1, [] => []
  | fuel + 1, c :: rest =>
    if isDotDash c then
      match sufTokLen rest with
      | some n => sufGo fuel (rest.drop n)
      | none => c :: sufGo fuel rest
    else c :: sufGo fuel rest

/-- Match `\d{8}(\b|$)` at the head of `l` (exactly eight digits followed by a
non-word char or the end). -/
def dateTok8 (l : List Char) : Bool :=
  (l.take 8).length == 8 && (l.take 8).all Char.isDigit && bAfter (l.drop 8)

/-- Scanner for the global `/[.-]\d{8}(\b|$)/g` → `''`. -/
def date8Go : Nat → List Char → List Char
  | 0, l => l
  | _ + 1, [] => []
  | fuel + 1, c :: rest =>
    if isDotDash c && dateTok8 rest then date8Go fuel (rest.drop 8)
    else c :: date8Go fuel rest

namespace ModelMatcher

/-- `ModelMatcher._stripSuffixes` (content.js 441-445) on char lists. -/
def stripSuffixesL (l : List Char) : List Char :=
  let a := sufGo l.length l
  date8Go a.length a

/-- `ModelMatcher._stripSuffixes` on strings. -/
def stripSuffixes (s : String) : String := ⟨stripSuffixesL s.data⟩

end ModelMatcher

/-- Match `20\d{6}(?=[.-]|$)` at the head of `l`: `20`, six more digits, and a
lookahead requiring `.`/`-` or the end (the lookahead is not consumed). -/
def date20Tok (l : List Char) : Bool :=
  l.take 2 == ['2','0'] && ((l.drop 2).take 6).length == 6 &&
    ((l.drop 2).take 6).all Char.isDigit &&
    (match l.drop 8 with
     | [] => true
     | c :: _ => isDotDash c)

/-- Scanner for the global `/[.-]20\d{6}(?=[.-]|$)/g` → `''`; a match consumes
the separator and the eight digits, not the lookahead. -/
def date20Go : Nat → List Char → List Char
  | 0, l => l
  | _ + 1, [] => []
  | fuel + 1, c :: rest =>
    if isDotDash c && date20Tok rest then date20Go fuel (rest.drop 8)
    else c :: date20Go fuel rest

/-- Global replacement of `--+` by `-`: collapse runs of hyphens to one (a
single `-` is left as is, which coincides with collapsing every run). -/
def dashGo : List Char → Bool → List Char
  | [], _ => []
  | c :: rest, inRun =>
    if c == '-' then
      if inRun then dashGo rest true else '-' :: dashGo rest true
    else c :: dashGo rest false

def dashFix (l : List Char) : List Char := dashGo l false

/-- Single (non-global) `/[.-]$/` → `''`: drop one trailing `.`/`-`. -/
def dropTrailDot (l : List Char) : List Char :=
  match l.getLast? with
  | some c => if isDotDash c then l.dropLast else l
  | none => l

namespace ModelMatcher

/-- `ModelMatcher._stripDates` (content.js 450-456) on char lists. -/
def stripDatesL (l : List Char) : List Char :=
  trimWs (dropTrailDot (dashFix (date20Go l.length l)))

/-- `ModelMatcher._stripDates` on strings. -/
def stripDates (s : String) : String := ⟨stripDatesL s.data⟩

end ModelMatcher

/-- Scanner for the global `/\(thinking[^)]*\)/g` → `''`: at `(` followed by
the literal `thinking`, consume up to and including the first `)`; if no `)`
follows, there is no match at this position. -/
def parenGo : Nat → List Char → List Char
  | 0, l => l
  | _ + 1, [] => []
  | fuel + 1, c :: rest =>
    if c == '(' && rest.take 8 == ['t','h','i','n','k','i','n','g'] &&
        (rest.dropWhile (fun d => !(d == ')'))).length > 0 then
      parenGo fuel ((rest.dropWhile (fun d => !(d == ')'))).drop 1)
    else c :: parenGo fuel rest

/-- Match `(-[a-z0-9]+)*$` (with `/i`): the remainder must consist of blocks
of `-` followed by a nonempty alphanumeric run.  Maximal-munch is exact here
because a run cannot contain `-`. -/
def qualTailGo : Nat → List Char → Bool
  | 0, l => l.isEmpty
  | _ + 1, [] => true
  | fuel + 1, c :: rest =>
    c == '-' &&
      (let run := rest.takeWhile Char.isAlphanum
       run.length > 0 && qualTailGo fuel (rest.drop run.length))

/-- Match `thinking(-[a-z0-9]+)*$` (case-insensitive) at the head of `l`. -/
def thinkTailTok (l : List Char) : Bool :=
  tokHeadCI l ['t','h','i','n','k','i','n','g'] && qualTailGo l.length (l.drop 8)

/-- Single anchored `/[.-]thinking(-[a-z0-9]+)*$/i` → `''`: remove from the
first position where the pattern matches through to the end. -/
def thinkTailA : List Char → List Char
  | [] => []
  | c :: rest =>
    if isDotDash c && thinkTailTok rest then []
    else c :: thinkTailA rest

/-- Single anchored `/[.-]thinking$/i` → `''`. -/
def thinkTailB : List Char → List Char
  | [] => []
  | c :: rest =>
    if isDotDash c && tokHeadCI rest ['t','h','i','n','k','i','n','g'] &&
        rest.length == 8 then []
    else c :: thinkTailB rest

namespace ModelMatcher

/-- `ModelMatcher._stripThinking` (content.js 461-468) on char lists. -/
def stripThinkingL (l : List Char) : List Char :=
  trimWs (dropTrailDot (dashFix (thinkTailB (thinkTailA (parenGo l.length l)))))

/-- `ModelMatcher._stripThinking` on strings. -/
def stripThinking (s : String) : String := ⟨stripThinkingL s.data⟩

end ModelMatcher

/-! ## JS values

A small model of the JavaScript values flowing through the adapters and
catalog records.  The `undefined` constructor models the JS value of that
name (absent object fields).
Catalog records only ever hold primitive values on the inputs considered, so
the record field type `JsVal` is primitive, with `other` standing for a
non-primitive (array/object) value stored verbatim by the source; the parsed
payloads handed to the adapters are the full `Json` type. -/

inductive JsVal where
  | null : JsVal
  | undefined : JsVal
  | bool : Bool → JsVal
  | num : ℚ → JsVal
  | str : String → JsVal
  | other : JsVal
deriving DecidableEq

/-- A parsed JSON payload (plus `undefined`, so that absent fields propagate). -/
inductive Json where
  | null : Json
  | undefined : Json
  | bool : Bool → Json
  | num : ℚ → Json
  | str : String → Json
  | arr : List Json → Json
  | obj : List (String × Json) → Json

/-- The primitive view of a JS value, as stored in a catalog record. -/
def Json.toPrim : Json → JsVal
  | .null => .null
  | .undefined => .undefined
  | .bool b => .bool b
  | .num q => .num q
  | .str s => .str s
  | .arr _ => .other
  | .obj _ => .other

/-- JS truthiness (`NaN`, which is also falsy, does not arise here). -/
def truthy : Json → Bool
  | .null => false
  | .undefined => false
  | .bool b => b
  | .num q => !(q == 0)
  | .str s => !(s == "")
  | .arr _ => true
  | .obj _ => true

/-- JS `a || b`. -/
def jsOr (a b : Json) : Json := if truthy a then a else b

/-- JS member access `v.f`: a `TypeError` on `null`/`undefined`, the field's
value (or `undefined`) on objects, `undefined` on auto-wrapped primitives. -/
def getField : Json → String → Except Unit Json
  | .null, _ => .error ()
  | .undefined, _ => .error ()
  | .obj fs, name => .ok (((fs.find? (fun p => p.1 = name)).map (·.2)).getD .undefined)
  | _, _ => .ok .undefined

/-- JS `s.includes(key)` on strings: substring containment. -/
def jsIncludes : List Char → List Char → Bool
  | [], key => key.isEmpty
  | c :: rest, key => key.isPrefixOf (c :: rest) || jsIncludes rest key

/-! ## Catalog records

One record shape covers the pricing and context catalogs: a JS object's field
set, with `undefined` for fields a given adapter does not write (reading such a
field in JS yields `undefined`, as reading an absent field does). -/

structure MapEntry where
  input_cost_per_1m : JsVal := .undefined
  output_cost_per_1m : JsVal := .undefined
  operator : JsVal := .undefined
  sourceModelName : JsVal := .undefined
  context_length : JsVal := .undefined
  input_modalities : JsVal := .undefined
  output_modalities : JsVal := .undefined
  hasExplicitModalities : JsVal := .undefined
deriving DecidableEq

/-- A catalog: the JS `Map` in insertion order (keys are unique because every
writer guards insertions with `!map.has(key)`). -/
abbrev Catalog := List (List Char × MapEntry)

/-- `map.has(k)` / `map.get(k)` combined: the record stored under key `k`. -/
def lookupMap (map : Catalog) (k : List Char) : Option MapEntry :=
  (map.find? (fun kv => kv.1 = k)).map (·.2)

namespace ModelMatcher

/-- `ModelMatcher._isVersionContinuation` (content.js 430-436).  In JS a
comparison against `undefined` (out-of-range index, empty key) is false. -/
def isVersionContinuation (str : List Char) (pos : Nat) (key : List Char) : Bool :=
  match str.get? pos, str.get? (pos + 1), key.getLast? with
  | some charAfter, some charAfterPlus1, some keyLast =>
    (charAfter == '.' || charAfter == '-') &&
      charAfterPlus1.isDigit && keyLast.isDigit
  | _, _, _ => false

/-- The operator-based loop of `_findMatchInMap` (content.js 485-503):
sequentially keep the entry whose operator condition holds and whose key is
strictly longer than the best so far. -/
def operatorScanGo (searchTerm : List Char) :
    Catalog → Option MapEntry → Nat → Option MapEntry
  | [], best, _ => best
  | (key, entry) :: rest, best, bestLen =>
    let st1 : Option MapEntry × Nat :=
      if entry.operator = .str "includes" ∧ jsIncludes searchTerm key ∧
          key.length > bestLen then
        (some entry, key.length)
      else (best, bestLen)
    let st2 : Option MapEntry × Nat :=
      if entry.operator = .str "startsWith" ∧ key.isPrefixOf searchTerm ∧
          key.length > st1.2 then
        (some entry, key.length)
      else st1
    operatorScanGo searchTerm rest st2.1 st2.2

/-- Stage 3 of `_findMatchInMap` (content.js 505-523): the search term starts
with the key, the char after the key is absent or a separator not beginning a
version continuation; keep the longest such key. -/
def stage3Go (searchTerm : List Char) :
    Catalog → Option MapEntry → Nat → Option MapEntry
  | [], best, _ => best
  | (key, entry) :: rest, best, bestLen =>
    if key.isPrefixOf searchTerm then
      let ok : Bool :=
        match searchTerm.get? key.length with
        | none => true
        | some charAfterKey =>
          (charAfterKey == '-' || charAfterKey == '.' ||
           charAfterKey == '/' || charAfterKey == ':') &&
          !isVersionContinuation searchTerm key.length key
      if ok ∧ key.length > bestLen then
        stage3Go searchTerm rest (some entry) key.length
      else stage3Go searchTerm rest best bestLen
    else stage3Go searchTerm rest best bestLen

/-- Stage 4 of `_findMatchInMap` (content.js 525-541): the key starts with the
search term and continues with a separator; keep the shortest such key
(`none` as accumulator length models the initial `Infinity`). -/
def stage4Go (searchTerm : List Char) :
    Catalog → Option (MapEntry × Nat) → Option MapEntry
  | [], acc => acc.map (·.1)
  | (key, entry) :: rest, acc =>
    if searchTerm.isPrefixOf key then
      let ok : Bool :=
        match key.get? searchTerm.length with
        | none => false
        | some charAfterNormalized =>
          charAfterNormalized == '-' || charAfterNormalized == '.' ||
          charAfterNormalized == '/' || charAfterNormalized == ':'
      if ok && (match acc with
                | none => true
                | some (_, len) => decide (key.length < len)) then
        stage4Go searchTerm rest (some (entry, key.length))
      else stage4Go searchTerm rest acc
    else stage4Go searchTerm rest acc

/-- `ModelMatcher._findMatchInMap` (content.js 478-542). -/
def findMatchInMap (map : Catalog) (searchTerm : List Char)
    (checkOperators : Bool) : Option MapEntry :=
  match lookupMap map searchTerm with
  | some e => some e
  | none =>
    let operatorMatch :=
      if checkOperators then operatorScanGo searchTerm map none 0 else none
    match operatorMatch with
    | some e => some e
    | none =>
      match stage3Go searchTerm map none 0 with
      | some e => some e
      | none => stage4Go searchTerm map none

/-- `ModelMatcher.findMatch` (content.js 552-592): the five progressively more
aggressive normalization attempts, each tried only when it differs from the
earlier ones (and, from stage 3 on, is nonempty). -/
def findMatch (map : Catalog) (modelName : Option String)
    (checkOperators : Bool) : Option MapEntry :=
  let normalized := (normalizeModelName modelName).data
  match findMatchInMap map normalized checkOperators with
  | some r => some r
  | none =>
    let withoutSuffix := stripSuffixesL normalized
    let r2 := if withoutSuffix ≠ normalized then
        findMatchInMap map withoutSuffix checkOperators
      else none
    match r2 with
    | some r => some r
    | none =>
      let withoutDates := stripDatesL normalized
      let r3 := if withoutDates ≠ normalized ∧ withoutDates.length > 0 then
          findMatchInMap map withoutDates checkOperators
        else none
      match r3 with
      | some r => some r
      | none =>
        let withoutThinking := stripThinkingL normalized
        let r4 := if withoutThinking ≠ normalized ∧ withoutThinking.length > 0 then
            findMatchInMap map withoutThinking checkOperators
          else none
        match r4 with
        | some r => some r
        | none =>
          let withoutDatesAndThinking := stripThinkingL withoutDates
          if withoutDatesAndThinking ≠ normalized ∧
              withoutDatesAndThinking ≠ withoutDates ∧
              withoutDatesAndThinking ≠ withoutThinking ∧
              withoutDatesAndThinking.length > 0 then
            findMatchInMap map withoutDatesAndThinking checkOperators
          else none

end ModelMatcher

/-- `ContextService.getContext` (content.js 651-653): a lookup with operator
checking disabled (no options object is passed). -/
def ContextService.getContext (contextMap : Catalog) (modelName : Option String) :
    Option MapEntry :=
  ModelMatcher.findMatch contextMap modelName false

/-- `PricingService.getPricing` (content.js 794-797): operator checking on. -/
def PricingService.getPricing (pricingMap : Catalog) (modelName : Option String) :
    Option MapEntry :=
  ModelMatcher.findMatch pricingMap modelName true

end ArenaPlus

deriving instance DecidableEq for Except

namespace ArenaPlus

/-! ## Provider adapters (content.js 716-792)

Each builder starts from a cleared map and returns the assembled catalog; a
JS `TypeError` escaping the builder (and caught by the fetch wrapper, leaving
the partially built map behind) is modelled by `Except.error ()`. -/

/-- `normalizeModelName` applied to a raw JS value: falsy values normalize to
`''`; a truthy non-string has no `toLowerCase` method, a `TypeError`. -/
def normJs (v : Json) : Except Unit String :=
  if truthy v then
    match v with
    | .str s => .ok (ModelMatcher.normalizeModelName (some s))
    | _ => .error ()
  else .ok ""

/-- `key.split('/').pop()`: the segment after the last `/` (the whole key
when there is no `/`). -/
def lastSeg (k : List Char) : List Char :=
  (k.reverse.takeWhile (fun c => !(c == '/'))).reverse

/-- The insertion pattern every builder repeats (e.g. content.js 729-736):
insert under `key` if absent, then under the short key if it is nonempty,
differs from `key`, and is itself absent. -/
def addWithShortKey (cat : Catalog) (key : List Char) (e : MapEntry) : Catalog :=
  let cat1 := if (lookupMap cat key).isSome then cat else cat ++ [(key, e)]
  let shortKey := lastSeg key
  if shortKey.length > 0 ∧ shortKey ≠ key ∧ !(lookupMap cat1 shortKey).isSome then
    cat1 ++ [(shortKey, e)]
  else cat1

/-- One loop iteration of `PricingService._buildHeliconeMap` (content.js
720-737). -/
def heliconeAdd (cat : Catalog) (entry : Json) : Except Unit Catalog := do
  let modelV ← getField entry "model"
  let key ← normJs modelV
  let icv ← getField entry "input_cost_per_1m"
  let ocv ← getField entry "output_cost_per_1m"
  let opv ← getField entry "operator"
  let pricing : MapEntry := {
    input_cost_per_1m := (jsOr icv (.num 0)).toPrim
    output_cost_per_1m := (jsOr ocv (.num 0)).toPrim
    operator := (jsOr opv (.str "equals")).toPrim
    sourceModelName := modelV.toPrim }
  pure (addWithShortKey cat key.data pricing)

/-- `PricingService._buildHeliconeMap` (content.js 716-738):
`const entries = data.data || data; if (!Array.isArray(entries)) return;`
then the insertion loop. -/
def PricingService.buildHeliconeMap (data : Json) : Except Unit Catalog := do
  let dataField ← getField data "data"
  let entries := jsOr dataField data
  match entries with
  | .arr es => es.foldlM heliconeAdd []
  | _ => pure []

/-- `Object.entries` (string keys in insertion order; enumerating a string
yields its characters, a primitive yields nothing, `null`/`undefined` throw). -/
def jsEntries : Json → Except Unit (List (String × Json))
  | .null => .error ()
  | .undefined => .error ()
  | .obj fs => .ok fs
  | .arr xs => .ok (xs.enum.map (fun p => (toString p.1, p.2)))
  | .str s => .ok (s.data.enum.map (fun p => (toString p.1, Json.str ⟨[p.2]⟩)))
  | _ => .ok []

/-- JS `x * 1000000` on an adapter cost field.  The field is a number (or the
`0` defaulted by `|| 0`) in the documented provider shape; the numeric
coercion JS would apply to other operand types is not modelled. -/
def jsMul1M : Json → JsVal
  | .num q => .num (q * 1000000)
  | v => v.toPrim

/-- One loop iteration of `PricingService._buildLiteLLMMap` (content.js
741-762). -/
def litellmAdd (cat : Catalog) (p : String × Json) : Except Unit Catalog := do
  if p.1 = "sample_spec" then pure cat
  else do
    let icv ← getField p.2 "input_cost_per_token"
    let ocv ← getField p.2 "output_cost_per_token"
    if !truthy icv && !truthy ocv then pure cat
    else do
      let key := ModelMatcher.normalizeModelName (some p.1)
      let mit ← getField p.2 "max_input_tokens"
      let mt ← getField p.2 "max_tokens"
      let pricing : MapEntry := {
        input_cost_per_1m := jsMul1M (jsOr icv (.num 0))
        output_cost_per_1m := jsMul1M (jsOr ocv (.num 0))
        operator := .str "equals"
        sourceModelName := .str p.1
        context_length := (jsOr mit (jsOr mt .null)).toPrim }
      pure (addWithShortKey cat key.data pricing)

/-- `PricingService._buildLiteLLMMap` (content.js 740-763). -/
def PricingService.buildLiteLLMMap (data : Json) : Except Unit Catalog := do
  let entries ← jsEntries data
  entries.foldlM litellmAdd []

/-- The numeric value of a digit run. -/
def digitsVal (l : List Char) : ℕ :=
  l.foldl (fun a c => 10 * a + (c.toNat - 48)) 0

/-- JS `parseFloat` on a string: longest numeric prefix
`[+-]?(\d*\.?\d*)([eE][+-]?\d+)?` after leading whitespace, `none` for `NaN`
(no digits).  `Infinity` literals are not modelled. -/
def parseFloatStr (l0 : List Char) : Option ℚ :=
  let l := l0.dropWhile isWsChar
  let sign : ℚ := match l with
    | '-' :: _ => -1
    | _ => 1
  let l1 := match l with
    | '-' :: r => r
    | '+' :: r => r
    | _ => l
  let ip := l1.takeWhile Char.isDigit
  let l2 := l1.drop ip.length
  let fp := match l2 with
    | '.' :: r => r.takeWhile Char.isDigit
    | _ => []
  let l3 := match l2 with
    | '.' :: r => r.drop fp.length
    | _ => l2
  if ip.length = 0 ∧ fp.length = 0 then none
  else
    let mantissa : ℚ := (digitsVal ip : ℚ) + (digitsVal fp : ℚ) / ((10 : ℚ) ^ fp.length)
    let expv : ℤ := match l3 with
      | e :: '-' :: r =>
        if (e == 'e' || e == 'E') && (r.takeWhile Char.isDigit).length > 0 then
          -(digitsVal (r.takeWhile Char.isDigit) : ℤ)
        else 0
      | e :: '+' :: r =>
        if (e == 'e' || e == 'E') && (r.takeWhile Char.isDigit).length > 0 then
          (digitsVal (r.takeWhile Char.isDigit) : ℤ)
        else 0
      | e :: r =>
        if (e == 'e' || e == 'E') && (r.takeWhile Char.isDigit).length > 0 then
          (digitsVal (r.takeWhile Char.isDigit) : ℤ)
        else 0
      | _ => 0
    some (sign * mantissa * (10 : ℚ) ^ expv)

/-- JS `parseFloat(v)` for an arbitrary value (the argument is coerced to a
string first, so numbers come back unchanged and other primitives give
`NaN` = `none`; array stringification is not modelled). -/
def parseFloatQ : Json → Option ℚ
  | .num q => some q
  | .str s => parseFloatStr s.data
  | _ => none

/-- One loop iteration of `PricingService._buildOpenRouterMap` (content.js
768-791). -/
def openRouterAdd (cat : Catalog) (model : Json) : Except Unit Catalog := do
  let idV ← getField model "id"
  let pricingV ← getField model "pricing"
  if !truthy idV || !truthy pricingV then pure cat
  else do
    let key ← normJs idV
    let promptV ← getField pricingV "prompt"
    let completionV ← getField pricingV "completion"
    let clV ← getField model "context_length"
    let pricing : MapEntry := {
      input_cost_per_1m := .num (((parseFloatQ promptV).getD 0) * 1000000)
      output_cost_per_1m := .num (((parseFloatQ completionV).getD 0) * 1000000)
      operator := .str "equals"
      sourceModelName := idV.toPrim
      context_length := (jsOr clV .null).toPrim }
    pure (addWithShortKey cat key.data pricing)

/-- `PricingService._buildOpenRouterMap` (content.js 765-792):
`const models = data.data || [];` then `for (const model of models)`; a
`for..of` over a non-iterable value throws. -/
def PricingService.buildOpenRouterMap (data : Json) : Except Unit Catalog := do
  let dataField ← getField data "data"
  let models := jsOr dataField (.arr [])
  match models with
  | .arr ms => ms.foldlM openRouterAdd []
  | .str s => (s.data.map (fun c => Json.str ⟨[c]⟩)).foldlM openRouterAdd []
  | _ => .error ()

/-! ## Value scorer (content.js 81-118) -/

/-- `ELO_BASELINE` (content.js 81). -/
def ELO_BASELINE : ℝ := 1000

/-- `RANK_DECAY_BASE` (content.js 88). -/
def RANK_DECAY_BASE : ℝ := 0.85

/-- `calculateBangForBuck` (content.js 107-118).  The arena score is an
`Option ℝ` so that an absent (`null`/`undefined`) score is representable; the
source's `!arenaScore` truthiness test is the `= 0` disjunct (`NaN` does not
arise over `ℝ`).  `Math.log` is `Real.log`, `Math.pow` is `Real.rpow`. -/
noncomputable def calculateBangForBuck (arenaScore : Option ℝ)
    (inputCostPer1M outputCostPer1M : ℝ) (rank : ℝ) : Option ℝ :=
  match arenaScore with
  | none => none
  | some a =>
    if a = 0 ∨ a ≤ ELO_BASELINE then none
    else
      let blendedPrice := (inputCostPer1M + outputCostPer1M) / 2
      if blendedPrice ≤ 0 then none
      else
        let baseScore := (a - ELO_BASELINE) / Real.log (1 + blendedPrice)
        let safeRank := max rank 1
        let rankMultiplier := RANK_DECAY_BASE ^ (safeRank - 1)
        some (baseScore * rankMultiplier)

/-- The value scorer as §4.4 and the claim state it, written from the spec's
words for comparison with `calculateBangForBuck`: none exactly when the
capability score is absent (falsy) or at most `BASELINE = 1000`, or when the
blended price `(inputCost + outputCost)/2` is at most 0; otherwise
`((capability - BASELINE) / ln(1 + blendedPrice)) * 0.85 ^ (max(rank,1) - 1)`. -/
noncomputable def valueScorerSpec (arenaCapabilityScore : Option ℝ)
    (inputCost outputCost rank : ℝ) : Option ℝ :=
  match arenaCapabilityScore with
  | none => none
  | some cap =>
    let blended := (inputCost + outputCost) / 2
    if cap = 0 ∨ cap ≤ 1000 ∨ blended ≤ 0 then none
    else
      some (((cap - 1000) / Real.log (1 + blended)) *
        (0.85 : ℝ) ^ (max rank 1 - 1))

/-! ## Occurrence predicates

Scanning predicates that hold iff the corresponding regex matches at some
position; they mirror the per-position conditions of the scanners above and
are used to state when a replacement pass is the identity. -/

/-- Some position matches `(^|[^0-9])(\d)[-_](\d)(?![0-9])` (the `[^0-9]`
form; position 0 with `^` is `vpCore` itself). -/
def hasVerPatGo : List Char → Bool
  | [] => false
  | c :: rest => (!c.isDigit && vpCore rest) || hasVerPatGo rest

/-- The version-separator regex matches somewhere in `l`. -/
def hasVerPat (l : List Char) : Bool := vpCore l || hasVerPatGo l

/-- The literal `%3a` occurs somewhere in `l`. -/
def has3a : List Char → Bool
  | [] => false
  | c :: rest => pre3a (c :: rest) || has3a rest

/-- `[.-](preview|beta|latest|v\d+)(\b|$)` matches somewhere in `l`. -/
def hasSufTok : List Char → Bool
  | [] => false
  | c :: rest => (isDotDash c && (sufTokLen rest).isSome) || hasSufTok rest

/-- `[.-]\d{8}(\b|$)` matches somewhere in `l`. -/
def hasDate8 : List Char → Bool
  | [] => false
  | c :: rest => (isDotDash c && dateTok8 rest) || hasDate8 rest

/-! ## Specification-side description of the operator stage (spec §4.3(b))

Written from the spec's words: among the entries whose operator is `includes`
and whose key the search term contains, or whose operator is `startsWith` and
whose key the search term starts with, take the one with the longest key,
ties broken by catalog insertion order (first wins). -/

/-- Is `kv` an operator-stage candidate for `searchTerm`? -/
def opCandidate (searchTerm : List Char) (kv : List Char × MapEntry) : Bool :=
  (kv.2.operator == .str "includes" && jsIncludes searchTerm kv.1) ||
  (kv.2.operator == .str "startsWith" && kv.1.isPrefixOf searchTerm)

/-- The largest key length among a candidate list. -/
def maxKeyLen (cs : Catalog) : Nat :=
  cs.foldr (fun kv m => max kv.1.length m) 0

/-- The operator-stage candidates with nonempty keys, in catalog order. -/
def posCandidates (map : Catalog) (searchTerm : List Char) : Catalog :=
  map.filter (fun kv => opCandidate searchTerm kv && decide (0 < kv.1.length))

/-- The record the spec's operator stage chooses: the first candidate whose
key length is maximal. -/
def specOperatorChoice (map : Catalog) (searchTerm : List Char) : Option MapEntry :=
  ((posCandidates map searchTerm).find?
    (fun kv => kv.1.length = maxKeyLen (posCandidates map searchTerm))).map (·.2)

/-! ## Concrete fixtures used in the claim theorems and witnesses -/

/-- An Equals-operator record keyed `grok-4`. -/
def grokEntry : MapEntry :=
  { input_cost_per_1m := .num 3, output_cost_per_1m := .num 15,
    operator := .str "equals", sourceModelName := .str "grok-4" }

def grokCat : Catalog := [("grok-4".data, grokEntry)]

/-- A Helicone-shaped includes record keyed `gemini`. -/
def gemIncl : MapEntry :=
  { input_cost_per_1m := .num 1, output_cost_per_1m := .num 4,
    operator := .str "includes", sourceModelName := .str "gemini" }

/-- An exact (Equals) record keyed `gemini-3-pro`. -/
def gemExact : MapEntry :=
  { input_cost_per_1m := .num 2, output_cost_per_1m := .num 12,
    operator := .str "equals", sourceModelName := .str "gemini-3-pro" }

def gemCat : Catalog := [("gemini".data, gemIncl), ("gemini-3-pro".data, gemExact)]

/-- Operator-stage fixtures: two candidates of key length 4 (`abcd` wins by
insertion order over `cdef`) and one shorter (`ab`). -/
def opE1 : MapEntry := { operator := .str "includes", sourceModelName := .str "e1" }

def opE2 : MapEntry := { operator := .str "startsWith", sourceModelName := .str "e2" }

def opE3 : MapEntry := { operator := .str "includes", sourceModelName := .str "e3" }

def opCat : Catalog :=
  [("ab".data, opE1), ("abcd".data, opE2), ("cdef".data, opE3)]

/-- The record `_buildHeliconeMap` inserts for an entry with no fields. -/
def heliconeDefaultRec : MapEntry :=
  { input_cost_per_1m := .num 0, output_cost_per_1m := .num 0,
    operator := .str "equals", sourceModelName := .undefined }

/-! # Theorems -/

/-- C1: for every capability score, input cost, output cost and rank, the
value scorer returns none exactly when the capability score is absent (falsy)
or ≤ BASELINE (1000), or when the blended price `(inputCost+outputCost)/2` is
≤ 0; otherwise it returns
`((capability − BASELINE) / ln(1 + blendedPrice)) · RANK_DECAY_BASE^(max(rank,1) − 1)`,
with `BASELINE = 1000` and `RANK_DECAY_BASE = 0.85`: `calculateBangForBuck`
agrees with the scorer written from the spec's words at every input. -/
theorem thm_C1 (arenaScore : Option ℝ) (inputCostPer1M outputCostPer1M rank : ℝ) :
    calculateBangForBuck arenaScore inputCostPer1M outputCostPer1M rank =
      valueScorerSpec arenaScore inputCostPer1M outputCostPer1M rank := by
  cases arenaScore with
  | none => rfl
  | some a =>
    simp only [calculateBangForBuck, valueScorerSpec, ELO_BASELINE, RANK_DECAY_BASE]
    by_cases h1 : a = 0 ∨ a ≤ 1000
    · rw [if_pos h1, if_pos (by tauto)]
    · rw [if_neg h1]
      by_cases h2 : (inputCostPer1M + outputCostPer1M) / 2 ≤ 0
      · rw [if_pos h2, if_pos (by tauto)]
      · rw [if_neg h2, if_neg (by tauto)]

/-- C2: against a catalog whose only record is the Equals-operator key
`grok-4`, resolving `grok-4.1` yields none (a version continuation: the char
after the key is `.` followed by a digit while the key ends in a digit), and
resolving `grok-4-preview` yields the `grok-4` record (the char after the key
is a separator not starting a version continuation). -/
theorem thm_C2 :
    PricingService.getPricing grokCat (some "grok-4.1") = none ∧
    PricingService.getPricing grokCat (some "grok-4-preview") = some grokEntry := by
  constructor <;> decide

/-- C4: a search term that is exactly a catalog key returns that record
immediately, regardless of the record's operator and of any operator-based
candidate elsewhere in the catalog; in particular, with an includes record
keyed `gemini` and an exact record keyed `gemini-3-pro` in the same catalog,
resolving `gemini-3-pro` returns the exact record. -/
theorem thm_C4 :
    (∀ (map : Catalog) (s : List Char) (checkOperators : Bool) (e : MapEntry),
        lookupMap map s = some e →
        ModelMatcher.findMatchInMap map s checkOperators = some e) ∧
    PricingService.getPricing gemCat (some "gemini-3-pro") = some gemExact := by
  constructor
  · intro map s checkOperators e h
    unfold ModelMatcher.findMatchInMap
    rw [h]
  · decide

/-- Witness for C4: the general exact-match clause applied to the gemini
catalog, where the includes-operator record would otherwise match. -/
theorem thm_C4_witness :
    ModelMatcher.findMatchInMap gemCat "gemini-3-pro".data true = some gemExact :=
  thm_C4.1 gemCat "gemini-3-pro".data true gemExact (by decide)

/-- An empty catalog makes the inner matching procedure fail at every stage. -/
theorem findMatchInMap_nil (s : List Char) (checkOperators : Bool) :
    ModelMatcher.findMatchInMap [] s checkOperators = none := by
  cases checkOperators <;> rfl

/-- C8: the resolver is a total function returning none on an empty catalog
for every model name (including the null name), the null name resolves as the
empty string does, and the scorer always returns either none or a value
(absence is signalled by none, not by an error; over the embedding both
functions are total by construction). -/
theorem thm_C8 :
    (∀ (modelName : Option String) (checkOperators : Bool),
        ModelMatcher.findMatch [] modelName checkOperators = none) ∧
    (∀ (map : Catalog) (checkOperators : Bool),
        ModelMatcher.findMatch map none checkOperators =
          ModelMatcher.findMatch map (some "") checkOperators) ∧
    (∀ (arenaScore : Option ℝ) (i o r : ℝ),
        calculateBangForBuck arenaScore i o r = none ∨
          ∃ v, calculateBangForBuck arenaScore i o r = some v) := by
  refine ⟨?_, ?_, ?_⟩
  · intro modelName checkOperators
    unfold ModelMatcher.findMatch
    simp only [findMatchInMap_nil, ite_self]
  · intro map checkOperators
    rfl
  · intro a i o r
    cases h : calculateBangForBuck a i o r with
    | none => exact Or.inl rfl
    | some v => exact Or.inr ⟨v, rfl⟩

/-- C7 counterexample: the Helicone adapter does not skip an entry whose
required fields (model name, prices) are all absent; it inserts a record
keyed by the empty string with defaulted values. -/
theorem cex_C7 :
    PricingService.buildHeliconeMap (.arr [.obj []]) =
      .ok [([], heliconeDefaultRec)] ∧
    ([([], heliconeDefaultRec)] : Catalog) ≠ [] := by
  constructor <;> decide

set_option maxRecDepth 4000 in
/-- C7 amended: the OpenRouter and LiteLLM adapters skip a single entry whose
required fields are missing and keep building; the Helicone adapter instead
inserts such an entry with defaulted values (empty-string key, zero costs,
equals operator) and keeps building; an adapter whose top-level input is a
primitive of the wrong shape yields an empty catalog; a null top level raises
the modelled TypeError (caught by the fetch wrapper) instead. -/
theorem thm_C7 :
    PricingService.buildOpenRouterMap
        (.obj [("data", .arr
          [.obj [("pricing", .obj [])],
           .obj [("id", .str "a/b")],
           .obj [("id", .str "a/b"), ("pricing", .obj [])]])]) =
      .ok [("a/b".data,
             { input_cost_per_1m := .num 0, output_cost_per_1m := .num 0,
               operator := .str "equals", sourceModelName := .str "a/b",
               context_length := .null }),
           ("b".data,
             { input_cost_per_1m := .num 0, output_cost_per_1m := .num 0,
               operator := .str "equals", sourceModelName := .str "a/b",
               context_length := .null })] ∧
    PricingService.buildLiteLLMMap
        (.obj [("sample_spec", .obj [("input_cost_per_token", .num 0.000005)]),
               ("m1", .obj []),
               ("m2", .obj [("input_cost_per_token", .num 0.000005)])]) =
      .ok [("m2".data,
             { input_cost_per_1m := .num 5, output_cost_per_1m := .num 0,
               operator := .str "equals", sourceModelName := .str "m2",
               context_length := .null })] ∧
    PricingService.buildHeliconeMap
        (.arr [.obj [],
               .obj [("model", .str "good"), ("input_cost_per_1m", .num 2)]]) =
      .ok [([], heliconeDefaultRec),
           ("good".data,
             { input_cost_per_1m := .num 2, output_cost_per_1m := .num 0,
               operator := .str "equals", sourceModelName := .str "good" })] ∧
    PricingService.buildHeliconeMap (.num 42) = .ok [] ∧
    PricingService.buildLiteLLMMap (.num 42) = .ok [] ∧
    PricingService.buildOpenRouterMap (.num 42) = .ok [] ∧
    PricingService.buildHeliconeMap .null = .error () ∧
    PricingService.buildLiteLLMMap .null = .error () ∧
    PricingService.buildOpenRouterMap .null = .error () := by
  refine ⟨?_, ?_, ?_, ?_, ?_, ?_, ?_, ?_, ?_⟩ <;> with_unfolding_all decide

/-- C9 counterexample: `stripSuffixes` removes the `-beta` token from the
middle of `llama-beta-3`, which contains no trailing suffix token, so the
input does not come back unchanged. -/
theorem cex_C9 :
    ModelMatcher.stripSuffixes "llama-beta-3" = "llama-3" ∧
    ("llama-3" : String) ≠ "llama-beta-3" := by
  constructor <;> decide

/-- The suffix-token scanner is the identity when no position matches. -/
theorem sufGo_id (fuel : Nat) (l : List Char) (h : hasSufTok l = false) :
    sufGo fuel l = l := by
  induction fuel generalizing l with
  | zero => rfl
  | succ fuel ih =>
    cases l with
    | nil => rfl
    | cons c rest =>
      rw [hasSufTok, Bool.or_eq_false_iff, Bool.and_eq_false_iff] at h
      unfold sufGo
      by_cases hd : isDotDash c
      · have hnone : sufTokLen rest = none := by
          rcases h.1 with h1 | h1
          · exact absurd hd (by simp [h1])
          · exact Option.not_isSome_iff_eq_none.mp (by simp [h1])
        rw [if_pos hd, hnone, ih rest h.2]
      · rw [if_neg hd, ih rest h.2]

/-- The date-token scanner is the identity when no position matches. -/
theorem date8Go_id (fuel : Nat) (l : List Char) (h : hasDate8 l = false) :
    date8Go fuel l = l := by
  induction fuel generalizing l with
  | zero => rfl
  | succ fuel ih =>
    cases l with
    | nil => rfl
    | cons c rest =>
      rw [hasDate8, Bool.or_eq_false_iff, Bool.and_eq_false_iff] at h
      unfold date8Go
      by_cases hd : (isDotDash c && dateTok8 rest) = true
      · rcases h.1 with h1 | h1 <;> simp [h1] at hd
      · rw [if_neg hd, ih rest h.2]

/-- C9 amended: `stripSuffixes` removes every `-`/`.`-preceded token matching
`preview|beta|latest|v<digits>` or an 8-digit run that ends at a word
boundary or the end of the string — anywhere in the string, not only at the
tail (see the counterexample) — and returns its input unchanged exactly when
no such token occurs anywhere. -/
theorem thm_C9 (x : String) (h1 : hasSufTok x.data = false)
    (h2 : hasDate8 x.data = false) :
    ModelMatcher.stripSuffixes x = x := by
  unfold ModelMatcher.stripSuffixes ModelMatcher.stripSuffixesL
  rw [sufGo_id _ _ h1, date8Go_id _ _ h2]

/-- Witness for C9: a name with no suffix token is returned unchanged. -/
theorem thm_C9_witness :
    hasSufTok "gpt-4o".data = false ∧ hasDate8 "gpt-4o".data = false ∧
      ModelMatcher.stripSuffixes "gpt-4o" = "gpt-4o" :=
  ⟨by decide, by decide, thm_C9 "gpt-4o" (by decide) (by decide)⟩

/-- C10: the structural prefix and suffix stages of the inner matching
procedure consider every catalog entry whatever its operator: a record under
key `gemini` is returned for the longer search term `gemini-3-pro` by the
prefix stage, and a record under key `gemini-3-pro` is returned for the
shorter search term `gemini` by the suffix stage, both with operator checking
disabled and for an arbitrary operator value — in particular through
`ContextService.getContext`, which never enables operator checking. -/
theorem thm_C10 (e : MapEntry) :
    ModelMatcher.findMatchInMap [("gemini".data, e)] "gemini-3-pro".data false = some e ∧
    ModelMatcher.findMatchInMap [("gemini-3-pro".data, e)] "gemini".data false = some e ∧
    ContextService.getContext [("gemini".data, e)] (some "gemini-3-pro") = some e := by
  refine ⟨rfl, rfl, rfl⟩

/-- When the guards pass, the scorer evaluates to the closed-form value. -/
theorem cb_eval (a i o r : ℝ) (ha : 1000 < a) (hp : 0 < (i + o) / 2) :
    calculateBangForBuck (some a) i o r =
      some ((a - 1000) / Real.log (1 + (i + o) / 2) *
        (0.85 : ℝ) ^ (max r 1 - 1)) := by
  have h1 : ¬(a = 0 ∨ a ≤ (1000 : ℝ)) := by
    push_neg; exact ⟨by linarith, by linarith⟩
  have h2 : ¬((i + o) / 2 ≤ 0) := not_le.mpr hp
  simp only [calculateBangForBuck, ELO_BASELINE, RANK_DECAY_BASE, if_neg h1,
    if_neg h2]

/-- C6: for fixed costs and rank the value score is strictly increasing in
the capability score above BASELINE; for fixed capability and rank it is
strictly decreasing in the blended price over positive prices; for fixed
capability and costs it is strictly decreasing in rank for ranks ≥ 1; and
rank 1 receives multiplier exactly 1.0. -/
theorem thm_C6 :
    (∀ a1 a2 i o r : ℝ, 1000 < a1 → a1 < a2 → 0 < (i + o) / 2 →
      ∃ v1 v2, calculateBangForBuck (some a1) i o r = some v1 ∧
        calculateBangForBuck (some a2) i o r = some v2 ∧ v1 < v2) ∧
    (∀ a i1 o1 i2 o2 r : ℝ, 1000 < a → 0 < (i1 + o1) / 2 →
      (i1 + o1) / 2 < (i2 + o2) / 2 →
      ∃ v1 v2, calculateBangForBuck (some a) i1 o1 r = some v1 ∧
        calculateBangForBuck (some a) i2 o2 r = some v2 ∧ v2 < v1) ∧
    (∀ a i o r1 r2 : ℝ, 1000 < a → 0 < (i + o) / 2 → 1 ≤ r1 → r1 < r2 →
      ∃ v1 v2, calculateBangForBuck (some a) i o r1 = some v1 ∧
        calculateBangForBuck (some a) i o r2 = some v2 ∧ v2 < v1) ∧
    (∀ a i o : ℝ, 1000 < a → 0 < (i + o) / 2 →
      calculateBangForBuck (some a) i o 1 =
        some ((a - 1000) / Real.log (1 + (i + o) / 2))) := by
  refine ⟨?_, ?_, ?_, ?_⟩
  · intro a1 a2 i o r ha1 ha12 hp
    have hlog : 0 < Real.log (1 + (i + o) / 2) := Real.log_pos (by linarith)
    have hM : 0 < (0.85 : ℝ) ^ (max r 1 - 1) :=
      Real.rpow_pos_of_pos (by norm_num) _
    refine ⟨_, _, cb_eval a1 i o r ha1 hp, cb_eval a2 i o r (by linarith) hp, ?_⟩
    apply mul_lt_mul_of_pos_right _ hM
    exact (div_lt_div_iff_of_pos_right hlog).mpr (by linarith)
  · intro a i1 o1 i2 o2 r ha hp1 hp12
    have hlog1 : 0 < Real.log (1 + (i1 + o1) / 2) := Real.log_pos (by linarith)
    have hlog12 : Real.log (1 + (i1 + o1) / 2) < Real.log (1 + (i2 + o2) / 2) :=
      Real.log_lt_log (by linarith) (by linarith)
    have hM : 0 < (0.85 : ℝ) ^ (max r 1 - 1) :=
      Real.rpow_pos_of_pos (by norm_num) _
    refine ⟨_, _, cb_eval a i1 o1 r ha hp1, cb_eval a i2 o2 r ha (by linarith), ?_⟩
    apply mul_lt_mul_of_pos_right _ hM
    exact div_lt_div_of_pos_left (by linarith) hlog1 hlog12
  · intro a i o r1 r2 ha hp hr1 hr12
    have hlog : 0 < Real.log (1 + (i + o) / 2) := Real.log_pos (by linarith)
    have hbase : 0 < (a - 1000) / Real.log (1 + (i + o) / 2) :=
      div_pos (by linarith) hlog
    have hmax1 : max r1 1 = r1 := max_eq_left hr1
    have hmax2 : max r2 1 = r2 := max_eq_left (by linarith)
    have hMlt : (0.85 : ℝ) ^ (max r2 1 - 1) < (0.85 : ℝ) ^ (max r1 1 - 1) := by
      rw [hmax1, hmax2]
      exact Real.rpow_lt_rpow_of_exponent_gt (by norm_num) (by norm_num)
        (by linarith)
    refine ⟨_, _, cb_eval a i o r1 ha hp, cb_eval a i o r2 ha hp, ?_⟩
    exact mul_lt_mul_of_pos_left hMlt hbase
  · intro a i o ha hp
    rw [cb_eval a i o 1 ha hp]
    norm_num

/-- `maxKeyLen` unfolds on a cons. -/
theorem maxKeyLen_cons (kv : List Char × MapEntry) (cs : Catalog) :
    maxKeyLen (kv :: cs) = max kv.1.length (maxKeyLen cs) := rfl

/-- `maxKeyLen` is at most any common bound on the key lengths. -/
theorem maxKeyLen_le {cs : Catalog} {n : Nat}
    (h : ∀ kv ∈ cs, kv.1.length ≤ n) : maxKeyLen cs ≤ n := by
  induction cs with
  | nil => exact Nat.zero_le n
  | cons kv cs ih =>
    rw [maxKeyLen_cons]
    exact max_le (h kv (List.mem_cons_self kv cs))
      (ih fun x hx => h x (List.mem_cons_of_mem kv hx))

/-- Every member's key length is at most `maxKeyLen`. -/
theorem le_maxKeyLen_of_mem {cs : Catalog} {kv : List Char × MapEntry}
    (h : kv ∈ cs) : kv.1.length ≤ maxKeyLen cs := by
  induction cs with
  | nil => cases h
  | cons a cs ih =>
    rw [maxKeyLen_cons]
    rcases List.mem_cons.mp h with rfl | h
    · exact le_max_left _ _
    · exact le_trans (ih h) (le_max_right _ _)

/-- A nonempty candidate list attains its maximal key length. -/
theorem maxKeyLen_attained {cs : Catalog} (h : cs ≠ []) :
    ∃ kv ∈ cs, kv.1.length = maxKeyLen cs := by
  induction cs with
  | nil => exact absurd rfl h
  | cons a cs ih =>
    rcases eq_or_ne cs [] with rfl | hne
    · exact ⟨a, List.mem_cons_self a [], by simp [maxKeyLen]⟩
    · rcases ih hne with ⟨kv, hmem, hlen⟩
      rcases le_total (maxKeyLen cs) a.1.length with hle | hle
      · refine ⟨a, List.mem_cons_self a cs, ?_⟩
        rw [maxKeyLen_cons]
        exact (max_eq_left hle).symm
      · refine ⟨kv, List.mem_cons_of_mem a hmem, ?_⟩
        rw [maxKeyLen_cons, hlen, max_eq_right hle]

/-- The two sequential operator checks of one loop iteration amount to one
combined candidate-and-strictly-longer test (an entry's operator is a single
value, so at most one branch can fire, and a branch that fired makes the
second length test fail). -/
theorem operatorScanGo_cons (s key : List Char) (entry : MapEntry)
    (rest : Catalog) (best : Option MapEntry) (bestLen : Nat) :
    ModelMatcher.operatorScanGo s ((key, entry) :: rest) best bestLen =
      (if opCandidate s (key, entry) && decide (bestLen < key.length) then
        ModelMatcher.operatorScanGo s rest (some entry) key.length
      else
        ModelMatcher.operatorScanGo s rest best bestLen) := by
  simp only [ModelMatcher.operatorScanGo]
  by_cases h1 : entry.operator = .str "includes" ∧ jsIncludes s key = true ∧
      key.length > bestLen
  · rw [if_pos h1]
    have h2 : ¬(entry.operator = .str "startsWith" ∧ key.isPrefixOf s = true ∧
        key.length > (((some entry : Option MapEntry), key.length) : _ × Nat).2) := by
      rintro ⟨_, _, h⟩; exact lt_irrefl _ h
    rw [if_neg h2]
    have hrhs : (opCandidate s (key, entry) && decide (bestLen < key.length)) = true := by
      simp [opCandidate, h1.1, h1.2.1, h1.2.2]
    rw [if_pos hrhs]
  · rw [if_neg h1]
    by_cases h2 : entry.operator = .str "startsWith" ∧ key.isPrefixOf s = true ∧
        key.length > (((best, bestLen) : _ × Nat)).2
    · rw [if_pos h2]
      have hrhs : (opCandidate s (key, entry) && decide (bestLen < key.length)) = true := by
        simp [opCandidate, h2.1, h2.2.1]
        exact h2.2.2
      rw [if_pos hrhs]
    · rw [if_neg h2]
      have hrhs : ¬((opCandidate s (key, entry) && decide (bestLen < key.length)) = true) := by
        intro hco
        rw [Bool.and_eq_true, decide_eq_true_iff] at hco
        rcases hco with ⟨hcand, hlt⟩
        rw [opCandidate, Bool.or_eq_true, Bool.and_eq_true, Bool.and_eq_true] at hcand
        rcases hcand with ⟨hop, hin⟩ | ⟨hop, hsw⟩
        · exact h1 ⟨by simpa using hop, hin, hlt⟩
        · exact h2 ⟨by simpa using hop, hsw, hlt⟩
      rw [if_neg hrhs]

/-- Two filters followed by the same `find?` agree when the filter
predicates agree on every element the `find?` predicate accepts. -/
theorem find?_filter_congr {α : Type} {p1 p2 q : α → Bool} (l : List α)
    (h : ∀ a, q a = true → p1 a = p2 a) :
    (l.filter p1).find? q = (l.filter p2).find? q := by
  induction l with
  | nil => rfl
  | cons a l ih =>
    rw [List.filter_cons, List.filter_cons]
    by_cases hq : q a = true
    · by_cases hp1 : p1 a = true
      · rw [if_pos hp1, if_pos ((h a hq) ▸ hp1), List.find?_cons_of_pos _ hq,
          List.find?_cons_of_pos _ hq]
      · have hp2 : ¬p2 a = true := by rw [← h a hq]; exact hp1
        rw [if_neg hp1, if_neg hp2]; exact ih
    · by_cases hp1 : p1 a = true <;> by_cases hp2 : p2 a = true
      · rw [if_pos hp1, if_pos hp2, List.find?_cons_of_neg _ hq,
          List.find?_cons_of_neg _ hq]; exact ih
      · rw [if_pos hp1, if_neg hp2, List.find?_cons_of_neg _ hq]; exact ih
      · rw [if_neg hp1, if_pos hp2, List.find?_cons_of_neg _ hq]; exact ih
      · rw [if_neg hp1, if_neg hp2]; exact ih

/-- Characterization of the operator-stage loop from any starting
accumulator: it returns the first entry of maximal key length among the
candidates whose key is strictly longer than the starting length, and the
starting accumulator when there is no such candidate. -/
theorem operatorScanGo_spec (s : List Char) (l : Catalog) (best : Option MapEntry)
    (bestLen : Nat) :
    ModelMatcher.operatorScanGo s l best bestLen =
      (match (l.filter (fun kv => opCandidate s kv && decide (bestLen < kv.1.length))).find?
          (fun kv => kv.1.length =
            maxKeyLen (l.filter (fun kv => opCandidate s kv && decide (bestLen < kv.1.length)))) with
      | some kv => some kv.2
      | none => best) := by
  induction l generalizing best bestLen with
  | nil => rfl
  | cons kv0 rest ih =>
    obtain ⟨key, entry⟩ := kv0
    rw [operatorScanGo_cons]
    by_cases hc : (opCandidate s (key, entry) && decide (bestLen < key.length)) = true
    · rw [if_pos hc, ih]
      have hblt : bestLen < key.length := by
        rw [Bool.and_eq_true, decide_eq_true_iff] at hc
        exact hc.2
      have hcons : List.filter
            (fun kv => opCandidate s kv && decide (bestLen < kv.1.length))
            ((key, entry) :: rest) =
          (key, entry) :: List.filter
            (fun kv => opCandidate s kv && decide (bestLen < kv.1.length)) rest := by
        rw [List.filter_cons]
        simp [hc]
      rw [hcons]
      set csR := List.filter
        (fun kv => opCandidate s kv && decide (bestLen < kv.1.length)) rest with hcsR
      set cs' := List.filter
        (fun kv => opCandidate s kv && decide (key.length < kv.1.length)) rest with hcs'
      by_cases hA : maxKeyLen csR ≤ key.length
      · have hnil : cs' = [] := by
          rw [hcs', List.filter_eq_nil_iff]
          intro x hx hpx
          rw [Bool.and_eq_true, decide_eq_true_iff] at hpx
          have hxR : x ∈ csR := by
            rw [hcsR, List.mem_filter]
            refine ⟨hx, ?_⟩
            rw [Bool.and_eq_true, decide_eq_true_iff]
            exact ⟨hpx.1, lt_trans hblt hpx.2⟩
          have := le_maxKeyLen_of_mem hxR
          omega
        rw [hnil]
        have hmax : maxKeyLen ((key, entry) :: csR) = key.length := by
          rw [maxKeyLen_cons]
          exact max_eq_left hA
        rw [hmax]
        rw [List.find?_cons_of_pos _ (by simp)]
        rfl
      · push_neg at hA
        have hne : csR ≠ [] := by
          intro hnil
          rw [hnil] at hA
          simp [maxKeyLen] at hA
        obtain ⟨y, hyMem, hyLen⟩ := maxKeyLen_attained hne
        have hyRest : y ∈ rest ∧ opCandidate s y = true ∧ bestLen < y.1.length := by
          have hm := List.mem_filter.mp (hcsR ▸ hyMem)
          rw [Bool.and_eq_true, decide_eq_true_iff] at hm
          exact ⟨hm.1, hm.2.1, hm.2.2⟩
        have hmaxcs' : maxKeyLen cs' = maxKeyLen csR := by
          apply le_antisymm
          · apply maxKeyLen_le
            intro x hx
            have hxm := List.mem_filter.mp (hcs' ▸ hx)
            rw [Bool.and_eq_true, decide_eq_true_iff] at hxm
            have hxR : x ∈ csR := by
              rw [hcsR, List.mem_filter]
              refine ⟨hxm.1, ?_⟩
              rw [Bool.and_eq_true, decide_eq_true_iff]
              exact ⟨hxm.2.1, lt_trans hblt hxm.2.2⟩
            exact le_maxKeyLen_of_mem hxR
          · have hy' : y ∈ cs' := by
              rw [hcs', List.mem_filter]
              refine ⟨hyRest.1, ?_⟩
              rw [Bool.and_eq_true, decide_eq_true_iff]
              exact ⟨hyRest.2.1, by omega⟩
            calc maxKeyLen csR = y.1.length := hyLen.symm
              _ ≤ maxKeyLen cs' := le_maxKeyLen_of_mem hy'
        have hmaxAll : maxKeyLen ((key, entry) :: csR) = maxKeyLen csR := by
          rw [maxKeyLen_cons]
          exact max_eq_right (le_of_lt hA)
        rw [hmaxAll, hmaxcs']
        rw [List.find?_cons_of_neg _ (by simp; omega)]
        have hfind : cs'.find? (fun kv => kv.1.length = maxKeyLen csR) =
            csR.find? (fun kv => kv.1.length = maxKeyLen csR) := by
          rw [hcs', hcsR]
          apply find?_filter_congr
          intro a ha
          have halen : a.1.length = maxKeyLen csR := of_decide_eq_true ha
          have h1 : decide (key.length < a.1.length) = true :=
            decide_eq_true (by omega)
          have h2 : decide (bestLen < a.1.length) = true :=
            decide_eq_true (by omega)
          rw [h1, h2]
        rw [hfind]
        have hsome : (csR.find? (fun kv => kv.1.length = maxKeyLen csR)).isSome := by
          rw [List.find?_isSome]
          exact ⟨y, hyMem, by simp [hyLen]⟩
        obtain ⟨y', hy'⟩ := Option.isSome_iff_exists.mp hsome
        rw [hy']
    · have hcf : (opCandidate s (key, entry) && decide (bestLen < key.length)) = false := by
        revert hc
        cases opCandidate s (key, entry) && decide (bestLen < key.length) <;> simp
      have hcons : List.filter
            (fun kv => opCandidate s kv && decide (bestLen < kv.1.length))
            ((key, entry) :: rest) =
          List.filter
            (fun kv => opCandidate s kv && decide (bestLen < kv.1.length)) rest := by
        rw [List.filter_cons]
        simp [hcf]
      rw [if_neg hc, ih, hcons]

/-- C5 counterexample: a zero-length key is an operator-stage candidate (an
empty string is contained in every search term) and is the longest candidate
in this catalog, yet the resolver returns none rather than its record: the
loop's running best length starts at 0 and requires strict improvement, so a
zero-length key can never be selected. -/
theorem cex_C5 :
    opCandidate "x".data ([], gemIncl) = true ∧
    ModelMatcher.findMatchInMap [([], gemIncl)] "x".data true = none := by
  constructor <;> decide

/-- C5 amended: when no exact match exists and operator checking is enabled,
among the operator candidates (operator Includes with the key contained in
the search term, or StartsWith with the key a prefix of it) with nonempty
keys, the resolver returns the record of the first candidate with the
longest key (equal lengths: the record inserted earlier wins); zero-length
candidate keys are never selected by this stage. -/
theorem thm_C5 (map : Catalog) (s : List Char)
    (hex : lookupMap map s = none) (hcand : posCandidates map s ≠ []) :
    ModelMatcher.findMatchInMap map s true = specOperatorChoice map s := by
  unfold ModelMatcher.findMatchInMap
  rw [hex]
  have hscan := operatorScanGo_spec s map none 0
  have hfilter : map.filter (fun kv => opCandidate s kv && decide (0 < kv.1.length)) =
      posCandidates map s := rfl
  rw [hfilter] at hscan
  have hsome : ((posCandidates map s).find?
      (fun kv => kv.1.length = maxKeyLen (posCandidates map s))).isSome := by
    rw [List.find?_isSome]
    obtain ⟨y, hyMem, hyLen⟩ := maxKeyLen_attained hcand
    exact ⟨y, hyMem, by simp [hyLen]⟩
  obtain ⟨y, hy⟩ := Option.isSome_iff_exists.mp hsome
  rw [hy] at hscan
  simp only [hscan]
  unfold specOperatorChoice
  rw [hy]
  rfl

/-- Witness for C5: in a catalog with candidates `ab` (includes), `abcd`
(startsWith) and `cdef` (includes) against search term `abcdef`, the two
length-4 candidates tie and the earlier-inserted `abcd` record wins. -/
theorem thm_C5_witness :
    ModelMatcher.findMatchInMap opCat "abcdef".data true =
        specOperatorChoice opCat "abcdef".data ∧
      specOperatorChoice opCat "abcdef".data = some opE2 :=
  ⟨thm_C5 opCat "abcdef".data (by decide) (by decide), by decide⟩

/-- Witness for C6: the spec's example `score(1500,5,5,1) > score(1500,5,5,10)`
through the rank clause, and the rank-1 multiplier through the last clause. -/
theorem thm_C6_witness :
    (∃ v1 v2, calculateBangForBuck (some 1500) 5 5 1 = some v1 ∧
      calculateBangForBuck (some 1500) 5 5 10 = some v2 ∧ v2 < v1) ∧
    calculateBangForBuck (some 1500) 5 5 1 =
      some ((1500 - 1000) / Real.log (1 + (5 + 5) / 2)) :=
  ⟨thm_C6.2.2.1 1500 5 5 1 10 (by norm_num) (by norm_num) (by norm_num)
      (by norm_num),
    thm_C6.2.2.2 1500 5 5 (by norm_num) (by norm_num)⟩

/-! ## Idempotence analysis of `normalizeModelName` (claim C3)

The pipeline is idempotent at `x` whenever its output contains no remaining
single-digit version pattern: lowercasing, `%3a`-decoding, whitespace
collapsing and trimming are all the identity on the pipeline's own output,
and so is the version rule under that hypothesis.  (Without the hypothesis a
second application can rewrite chained patterns such as `1-2-3`.) -/

/-- `Char.ofNat` on a valid scalar value round-trips through `toNat`. -/
theorem charToNat_ofNat {n : Nat} (h : n.isValidChar) :
    (Char.ofNat n).toNat = n := by
  unfold Char.ofNat
  rw [dif_pos h]
  rfl

/-- A character outside `A`-`Z` is fixed by `toLower`. -/
theorem toLower_eq_self_of_not_upper {c : Char}
    (h : ¬(c.toNat ≥ 65 ∧ c.toNat ≤ 90)) : c.toLower = c := by
  unfold Char.toLower
  rw [if_neg h]

/-- `toLower` of an upper-case character shifts its code by 32. -/
theorem toLower_of_upper {c : Char} (h : c.toNat ≥ 65 ∧ c.toNat ≤ 90) :
    c.toLower = Char.ofNat (c.toNat + 32) := by
  unfold Char.toLower
  rw [if_pos h]

/-- ASCII case mapping is idempotent. -/
theorem toLower_toLower (c : Char) : c.toLower.toLower = c.toLower := by
  by_cases h : c.toNat ≥ 65 ∧ c.toNat ≤ 90
  · rw [toLower_of_upper h]
    apply toLower_eq_self_of_not_upper
    have hv : (c.toNat + 32).isValidChar := Or.inl (by omega)
    rw [charToNat_ofNat hv]
    omega
  · have h' := toLower_eq_self_of_not_upper h
    rw [h']
    exact h'

/-- Characters of `rep3aGo`'s output come from the input or are `:`. -/
theorem mem_rep3aGo {c : Char} :
    ∀ (fuel : Nat) (l : List Char), c ∈ rep3aGo fuel l → c ∈ l ∨ c = ':' := by
  intro fuel
  induction fuel with
  | zero => intro l h; exact Or.inl h
  | succ fuel ih =>
    intro l h
    cases l with
    | nil => exact Or.inl h
    | cons a rest =>
      rw [rep3aGo] at h
      by_cases hp : pre3a (a :: rest) = true
      · rw [if_pos hp] at h
        rcases List.mem_cons.mp h with rfl | h
        · exact Or.inr rfl
        · rcases ih _ h with h | h
          · exact Or.inl (List.mem_cons_of_mem a (List.drop_subset 2 rest h))
          · exact Or.inr h
      · rw [if_neg hp] at h
        rcases List.mem_cons.mp h with rfl | h
        · exact Or.inl (List.mem_cons_self _ _)
        · rcases ih _ h with h | h
          · exact Or.inl (List.mem_cons_of_mem a h)
          · exact Or.inr h

/-- The version pattern only matches a list of length at least three. -/
theorem vpCore_shape {l : List Char} (h : vpCore l = true) :
    ∃ d1 s d2 t, l = d1 :: s :: d2 :: t ∧ d1.isDigit = true ∧
      isVerSep s = true ∧ d2.isDigit = true ∧ digitHead t = false := by
  rcases l with _ | ⟨d1, _ | ⟨s, _ | ⟨d2, t⟩⟩⟩
  · exact absurd h (by decide)
  · simp [vpCore] at h
  · simp [vpCore] at h
  · rw [vpCore] at h
    simp only [Bool.and_eq_true, Bool.not_eq_true'] at h
    exact ⟨d1, s, d2, t, rfl, h.1.1.1, h.1.1.2, h.1.2, h.2⟩

/-- Characters of `vfixGo`'s output come from the input or are `.`. -/
theorem mem_vfixGo {c : Char} :
    ∀ (fuel : Nat) (l : List Char), c ∈ vfixGo fuel l → c ∈ l ∨ c = '.' := by
  intro fuel
  induction fuel with
  | zero => intro l h; exact Or.inl h
  | succ fuel ih =>
    intro l h
    cases l with
    | nil => exact Or.inl h
    | cons a rest =>
      rw [vfixGo] at h
      by_cases hp : (!a.isDigit && vpCore rest) = true
      · rw [if_pos hp] at h
        obtain ⟨d1, s, d2, t, hrest, _, _, _, _⟩ :=
          vpCore_shape ((Bool.and_eq_true _ _).mp hp).2
        subst hrest
        simp only [List.headD, List.drop] at h
        simp only [List.mem_cons] at h ⊢
        rcases h with rfl | rfl | rfl | rfl | h
        · tauto
        · tauto
        · exact Or.inr rfl
        · tauto
        · rcases ih _ h with h | h
          · tauto
          · exact Or.inr h
      · rw [if_neg hp] at h
        rcases List.mem_cons.mp h with rfl | h
        · exact Or.inl (List.mem_cons_self _ _)
        · rcases ih _ h with h | h
          · exact Or.inl (List.mem_cons_of_mem a h)
          · exact Or.inr h

/-- Characters of `versionFix`'s output come from the input or are `.`. -/
theorem mem_versionFix {c : Char} {l : List Char} (h : c ∈ versionFix l) :
    c ∈ l ∨ c = '.' := by
  rcases l with _ | ⟨d1, rest⟩
  · exact mem_vfixGo _ _ h
  rcases rest with _ | ⟨s, rest2⟩
  · exact mem_vfixGo _ _ h
  rcases rest2 with _ | ⟨d2, t⟩
  · exact mem_vfixGo _ _ h
  rw [versionFix] at h
  by_cases hp : (d1.isDigit && isVerSep s && d2.isDigit && !digitHead t) = true
  · rw [if_pos hp] at h
    simp only [List.mem_cons] at h ⊢
    rcases h with rfl | rfl | rfl | h
    · tauto
    · exact Or.inr rfl
    · tauto
    · rcases mem_vfixGo _ _ h with h | h
      · tauto
      · exact Or.inr h
  · rw [if_neg hp] at h
    exact mem_vfixGo _ _ h

/-- Characters of `wsGo`'s output come from the input or are `-`. -/
theorem mem_wsGo {c : Char} :
    ∀ (l : List Char) (b : Bool), c ∈ wsGo l b → c ∈ l ∨ c = '-' := by
  intro l
  induction l with
  | nil => intro b h; exact Or.inl h
  | cons a rest ih =>
    intro b h
    rw [wsGo] at h
    by_cases hw : isWsChar a = true
    · rw [if_pos hw] at h
      cases b with
      | true =>
        rcases ih true h with h | h
        · exact Or.inl (List.mem_cons_of_mem a h)
        · exact Or.inr h
      | false =>
        rcases List.mem_cons.mp h with rfl | h
        · exact Or.inr rfl
        · rcases ih true h with h | h
          · exact Or.inl (List.mem_cons_of_mem a h)
          · exact Or.inr h
    · rw [if_neg hw] at h
      rcases List.mem_cons.mp h with rfl | h
      · exact Or.inl (List.mem_cons_self _ _)
      · rcases ih false h with h | h
        · exact Or.inl (List.mem_cons_of_mem a h)
        · exact Or.inr h

/-- Characters of `trimWs`'s output come from the input. -/
theorem mem_trimWs {c : Char} {l : List Char} (h : c ∈ trimWs l) : c ∈ l := by
  unfold trimWs at h
  rw [List.mem_reverse] at h
  have h1 := (List.dropWhile_sublist isWsChar).subset h
  rw [List.mem_reverse] at h1
  exact (List.dropWhile_sublist isWsChar).subset h1

/-- A list of `toLower`-fixed characters is fixed by `map toLower`. -/
theorem map_toLower_eq_self {l : List Char} (h : ∀ c ∈ l, c.toLower = c) :
    l.map Char.toLower = l := by
  induction l with
  | nil => rfl
  | cons a rest ih =>
    rw [List.map_cons, h a (List.mem_cons_self a rest),
      ih fun c hc => h c (List.mem_cons_of_mem a hc)]

/-- Every character of the pipeline's output is `toLower`-fixed. -/
theorem toLower_fixed_normalizeL {c : Char} {x : List Char}
    (h : c ∈ normalizeL x) : c.toLower = c := by
  unfold normalizeL at h
  have h1 := mem_trimWs h
  rcases mem_wsGo _ _ h1 with h2 | rfl
  · rcases mem_versionFix h2 with h3 | rfl
    · rcases mem_rep3aGo _ _ h3 with h4 | rfl
      · obtain ⟨a, _, rfl⟩ := List.mem_map.mp h4
        exact toLower_toLower a
      · decide
    · decide
  · decide

/-- Splitting `has3a` on a cons. -/
theorem has3a_cons_false {a : Char} {rest : List Char}
    (h : has3a (a :: rest) = false) :
    pre3a (a :: rest) = false ∧ has3a rest = false := by
  rw [has3a, Bool.or_eq_false_iff] at h
  exact h

/-- `rep3aGo` keeps the first character or replaces it by `:`. -/
theorem rep3aGo_headEq (fuel : Nat) (l : List Char) :
    (rep3aGo fuel l).head? = l.head? ∨ (rep3aGo fuel l).head? = some ':' := by
  cases fuel with
  | zero => exact Or.inl rfl
  | succ fuel =>
    cases l with
    | nil => exact Or.inl rfl
    | cons a rest =>
      rw [rep3aGo]
      by_cases hp : pre3a (a :: rest) = true
      · rw [if_pos hp]; exact Or.inr rfl
      · rw [if_neg hp]; exact Or.inl rfl

/-- A singleton `take 1` determines the head. -/
theorem headEq_of_take_one {l : List Char} {x : Char} (h : l.take 1 = [x]) :
    l.head? = some x := by
  cases l with
  | nil => simp at h
  | cons a as =>
    rw [List.take_succ_cons, List.take_zero] at h
    rw [List.cons.injEq] at h
    rw [h.1]
    rfl

/-- `take 1` is determined by `head?`. -/
theorem take_one_eq_of_headEq {l1 l2 : List Char} (h : l1.head? = l2.head?) :
    l1.take 1 = l2.take 1 := by
  cases l1 with
  | nil =>
    cases l2 with
    | nil => rfl
    | cons b bs => simp at h
  | cons a as =>
    cases l2 with
    | nil => simp at h
    | cons b bs =>
      simp only [List.head?] at h
      injection h with h
      rw [h]
      rfl

/-- A `3a`-prefix of `rep3aGo`'s output pulls back to the input. -/
theorem rep3aGo_take2_3a :
    ∀ (fuel : Nat) (l : List Char),
      (rep3aGo fuel l).take 2 = ['3', 'a'] → l.take 2 = ['3', 'a'] := by
  intro fuel
  cases fuel with
  | zero => intro l h; exact h
  | succ fuel =>
    intro l h
    cases l with
    | nil => simp [rep3aGo] at h
    | cons a rest =>
      rw [rep3aGo] at h
      by_cases hp : pre3a (a :: rest) = true
      · rw [if_pos hp] at h
        simp at h
      · rw [if_neg hp] at h
        rw [List.take_succ_cons] at h
        rw [List.cons.injEq] at h
        obtain ⟨rfl, htail⟩ := h
        have hhd := headEq_of_take_one htail
        rcases rep3aGo_headEq fuel rest with hh | hh
        · rw [hh] at hhd
          cases rest with
          | nil => simp at hhd
          | cons b bs =>
            simp only [List.head?] at hhd
            injection hhd with hhd
            subst hhd
            rfl
        · rw [hh] at hhd
          simp at hhd

/-- `rep3aGo` leaves no `%3a` occurrence behind (given enough fuel). -/
theorem rep3aGo_no3a :
    ∀ (fuel : Nat) (l : List Char), l.length ≤ fuel →
      has3a (rep3aGo fuel l) = false := by
  intro fuel
  induction fuel with
  | zero =>
    intro l hl
    rw [List.eq_nil_of_length_eq_zero (Nat.le_zero.mp hl)]
    rfl
  | succ fuel ih =>
    intro l hl
    cases l with
    | nil => rfl
    | cons a rest =>
      rw [rep3aGo]
      by_cases hp : pre3a (a :: rest) = true
      · rw [if_pos hp, has3a]
        have h1 : pre3a (':' :: rep3aGo fuel (rest.drop 2)) = false := by
          rw [pre3a]
          rfl
        rw [h1, Bool.false_or]
        apply ih
        rw [List.length_drop]
        simp only [List.length_cons] at hl
        omega
      · rw [if_neg hp, has3a]
        have h2 : has3a (rep3aGo fuel rest) = false := by
          apply ih
          simp only [List.length_cons] at hl
          omega
        rw [h2, Bool.or_false]
        by_contra hcon
        rw [Bool.not_eq_false, pre3a, Bool.and_eq_true] at hcon
        obtain ⟨ha, hta⟩ := hcon
        apply hp
        rw [pre3a, Bool.and_eq_true]
        refine ⟨ha, ?_⟩
        have hta' : (rep3aGo fuel rest).take 2 = ['3', 'a'] := by
          exact eq_of_beq hta
        have := rep3aGo_take2_3a fuel rest hta'
        exact beq_iff_eq.mpr this

/-- `vfixGo` keeps the first character. -/
theorem vfixGo_headEq (fuel : Nat) (l : List Char) :
    (vfixGo fuel l).head? = l.head? := by
  cases fuel with
  | zero => rfl
  | succ fuel =>
    cases l with
    | nil => rfl
    | cons a rest =>
      rw [vfixGo]
      by_cases hp : (!a.isDigit && vpCore rest) = true
      · rw [if_pos hp]; rfl
      · rw [if_neg hp]; rfl

/-- `vfixGo` keeps the first two characters. -/
theorem vfixGo_take2 (fuel : Nat) (l : List Char) :
    (vfixGo fuel l).take 2 = l.take 2 := by
  cases fuel with
  | zero => rfl
  | succ fuel =>
    cases l with
    | nil => rfl
    | cons a rest =>
      rw [vfixGo]
      by_cases hp : (!a.isDigit && vpCore rest) = true
      · rw [if_pos hp]
        obtain ⟨d1, s, d2, t, hrest, _, _, _, _⟩ :=
          vpCore_shape ((Bool.and_eq_true _ _).mp hp).2
        subst hrest
        rfl
      · rw [if_neg hp]
        rw [List.take_succ_cons, List.take_succ_cons,
          take_one_eq_of_headEq (vfixGo_headEq fuel rest)]

/-- A digit is not `%`. -/
theorem digit_beq_percent {d : Char} (h : d.isDigit = true) :
    (d == '%') = false := by
  by_cases hd : d = '%'
  · subst hd
    exact absurd h (by decide)
  · exact beq_eq_false_iff_ne.mpr hd

/-- `vfixGo` preserves the absence of `%3a`. -/
theorem vfixGo_no3a :
    ∀ (fuel : Nat) (l : List Char), has3a l = false →
      has3a (vfixGo fuel l) = false := by
  intro fuel
  induction fuel with
  | zero => intro l h; exact h
  | succ fuel ih =>
    intro l h
    cases l with
    | nil => rfl
    | cons a rest =>
      obtain ⟨hpre, hrest⟩ := has3a_cons_false h
      rw [vfixGo]
      by_cases hp : (!a.isDigit && vpCore rest) = true
      · rw [if_pos hp]
        obtain ⟨d1, s, d2, t, hsh, hd1, hs, hd2, hdh⟩ :=
          vpCore_shape ((Bool.and_eq_true _ _).mp hp).2
        subst hsh
        have ht : has3a t = false :=
          (has3a_cons_false
            (has3a_cons_false (has3a_cons_false hrest).2).2).2
        simp only [List.headD, List.drop]
        rw [has3a, has3a, has3a, has3a]
        have e1 : pre3a (a :: d1 :: '.' :: d2 :: vfixGo fuel t) = false := by
          rw [pre3a]
          simp
        have e2 : pre3a (d1 :: '.' :: d2 :: vfixGo fuel t) = false := by
          rw [pre3a]
          simp
        have e3 : pre3a ('.' :: d2 :: vfixGo fuel t) = false := by
          rw [pre3a]
          rfl
        have e4 : pre3a (d2 :: vfixGo fuel t) = false := by
          rw [pre3a, digit_beq_percent hd2]
          rfl
        rw [e1, e2, e3, e4, ih t ht]
        rfl
      · rw [if_neg hp, has3a, ih rest hrest, Bool.or_false]
        by_contra hcon
        rw [Bool.not_eq_false, pre3a, Bool.and_eq_true] at hcon
        obtain ⟨ha, hta⟩ := hcon
        have hta' : rest.take 2 = ['3', 'a'] := by
          rw [← vfixGo_take2 fuel rest]
          exact eq_of_beq hta
        rw [pre3a, Bool.and_eq_false_iff] at hpre
        rcases hpre with hpre | hpre
        · rw [ha] at hpre; cases hpre
        · rw [beq_iff_eq.mpr hta'] at hpre; cases hpre

/-- `versionFix` preserves the absence of `%3a`. -/
theorem versionFix_no3a {l : List Char} (h : has3a l = false) :
    has3a (versionFix l) = false := by
  rcases l with _ | ⟨d1, _ | ⟨s, _ | ⟨d2, t⟩⟩⟩
  · exact vfixGo_no3a _ _ h
  · exact vfixGo_no3a _ _ h
  · exact vfixGo_no3a _ _ h
  rw [versionFix]
  by_cases hp : (d1.isDigit && isVerSep s && d2.isDigit && !digitHead t) = true
  · rw [if_pos hp]
    have hd2 : d2.isDigit = true := by
      rw [Bool.and_eq_true, Bool.and_eq_true] at hp
      exact hp.1.2
    have ht : has3a t = false :=
      (has3a_cons_false (has3a_cons_false (has3a_cons_false h).2).2).2
    rw [has3a, has3a, has3a]
    have e1 : pre3a (d1 :: '.' :: d2 :: vfix t) = false := by
      rw [pre3a]
      simp
    have e2 : pre3a ('.' :: d2 :: vfix t) = false := by
      rw [pre3a]
      rfl
    have e3 : pre3a (d2 :: vfix t) = false := by
      rw [pre3a, digit_beq_percent hd2]
      rfl
    rw [e1, e2, e3]
    unfold vfix
    rw [vfixGo_no3a _ _ ht]
    rfl
  · rw [if_neg hp]
    exact vfixGo_no3a _ _ h

/-- The head of `wsGo _ false` is the input head, with whitespace as `-`. -/
theorem wsGo_false_headEq (c : Char) (rest : List Char) :
    (wsGo (c :: rest) false).head? =
      (if isWsChar c then some '-' else some c) := by
  rw [wsGo]
  by_cases hw : isWsChar c = true
  · rw [if_pos hw, if_pos hw]
    rfl
  · rw [if_neg hw, if_neg hw]
    rfl

/-- A `3a`-prefix of `wsGo _ false`'s output pulls back to the input. -/
theorem wsGo_false_take2_3a {l : List Char}
    (h : (wsGo l false).take 2 = ['3', 'a']) : l.take 2 = ['3', 'a'] := by
  cases l with
  | nil => simp [wsGo] at h
  | cons a rest =>
    rw [wsGo] at h
    by_cases hw : isWsChar a = true
    · rw [if_pos hw] at h
      simp at h
    · rw [if_neg hw] at h
      rw [List.take_succ_cons, List.cons.injEq] at h
      obtain ⟨rfl, htail⟩ := h
      have hhd := headEq_of_take_one htail
      cases rest with
      | nil => simp [wsGo] at hhd
      | cons b bs =>
        rw [wsGo_false_headEq b bs] at hhd
        by_cases hwb : isWsChar b = true
        · rw [if_pos hwb] at hhd
          simp at hhd
        · rw [if_neg hwb] at hhd
          injection hhd with hhd
          subst hhd
          rfl

/-- `wsGo` preserves the absence of `%3a`. -/
theorem wsGo_no3a :
    ∀ (l : List Char) (b : Bool), has3a l = false →
      has3a (wsGo l b) = false := by
  intro l
  induction l with
  | nil => intro b _; cases b <;> rfl
  | cons a rest ih =>
    intro b h
    obtain ⟨hpre, hrest⟩ := has3a_cons_false h
    rw [wsGo]
    by_cases hw : isWsChar a = true
    · rw [if_pos hw]
      cases b with
      | true =>
        rw [if_pos rfl]
        exact ih true hrest
      | false =>
        rw [if_neg Bool.false_ne_true]
        rw [has3a, ih true hrest, Bool.or_false]
        rw [pre3a]
        rfl
    · rw [if_neg hw, has3a, ih false hrest, Bool.or_false]
      by_contra hcon
      rw [Bool.not_eq_false, pre3a, Bool.and_eq_true] at hcon
      obtain ⟨ha, hta⟩ := hcon
      have hta' : rest.take 2 = ['3', 'a'] := wsGo_false_take2_3a (eq_of_beq hta)
      rw [pre3a, Bool.and_eq_false_iff] at hpre
      rcases hpre with hpre | hpre
      · rw [ha] at hpre; cases hpre
      · rw [beq_iff_eq.mpr hta'] at hpre; cases hpre

/-- `wsGo`'s output contains no whitespace. -/
theorem noWs_wsGo {c : Char} :
    ∀ (l : List Char) (b : Bool), c ∈ wsGo l b → isWsChar c = false := by
  intro l
  induction l with
  | nil => intro b h; cases b <;> cases h
  | cons a rest ih =>
    intro b h
    rw [wsGo] at h
    by_cases hw : isWsChar a = true
    · rw [if_pos hw] at h
      cases b with
      | true => exact ih true h
      | false =>
        rcases List.mem_cons.mp h with rfl | h
        · decide
        · exact ih true h
    · rw [if_neg hw] at h
      rcases List.mem_cons.mp h with rfl | h
      · exact Bool.not_eq_true _ ▸ hw
      · exact ih false h

/-- The `%3a` scanner is the identity on `%3a`-free input. -/
theorem rep3aGo_id :
    ∀ (fuel : Nat) (l : List Char), has3a l = false → rep3aGo fuel l = l := by
  intro fuel
  induction fuel with
  | zero => intro l _; rfl
  | succ fuel ih =>
    intro l h
    cases l with
    | nil => rfl
    | cons a rest =>
      obtain ⟨hpre, hrest⟩ := has3a_cons_false h
      rw [rep3aGo, if_neg (by rw [hpre]; exact Bool.false_ne_true), ih rest hrest]

/-- The version scanner is the identity when no inner position matches. -/
theorem vfixGo_id :
    ∀ (fuel : Nat) (l : List Char), hasVerPatGo l = false → vfixGo fuel l = l := by
  intro fuel
  induction fuel with
  | zero => intro l _; rfl
  | succ fuel ih =>
    intro l h
    cases l with
    | nil => rfl
    | cons a rest =>
      rw [hasVerPatGo, Bool.or_eq_false_iff] at h
      rw [vfixGo, if_neg (by rw [h.1]; exact Bool.false_ne_true), ih rest h.2]

/-- `versionFix` is the identity when the version regex matches nowhere. -/
theorem versionFix_id {l : List Char} (h : hasVerPat l = false) :
    versionFix l = l := by
  rw [hasVerPat, Bool.or_eq_false_iff] at h
  obtain ⟨hvp, hgo⟩ := h
  rcases l with _ | ⟨d1, _ | ⟨s, _ | ⟨d2, t⟩⟩⟩
  · exact vfixGo_id _ _ hgo
  · exact vfixGo_id _ _ hgo
  · exact vfixGo_id _ _ hgo
  · have hcond : (d1.isDigit && isVerSep s && d2.isDigit && !digitHead t) = false := hvp
    rw [versionFix, if_neg (by rw [hcond]; exact Bool.false_ne_true)]
    exact vfixGo_id _ _ hgo

/-- `wsGo` is the identity on whitespace-free input. -/
theorem wsGo_id :
    ∀ (l : List Char) (b : Bool), (∀ c ∈ l, isWsChar c = false) →
      wsGo l b = l := by
  intro l
  induction l with
  | nil => intro b _; rfl
  | cons a rest ih =>
    intro b h
    have hw : ¬isWsChar a = true := by
      rw [h a (List.mem_cons_self _ _)]
      exact Bool.false_ne_true
    rw [wsGo, if_neg hw, ih false fun c hc => h c (List.mem_cons_of_mem a hc)]

/-- `dropWhile` is the identity when no element satisfies the predicate. -/
theorem dropWhile_id_of_none {p : Char → Bool} {l : List Char}
    (h : ∀ c ∈ l, p c = false) : l.dropWhile p = l := by
  cases l with
  | nil => rfl
  | cons a rest =>
    rw [List.dropWhile_cons,
      if_neg (by rw [h a (List.mem_cons_self _ _)]; exact Bool.false_ne_true)]

/-- `trimWs` is the identity on whitespace-free input. -/
theorem trimWs_id {l : List Char} (h : ∀ c ∈ l, isWsChar c = false) :
    trimWs l = l := by
  unfold trimWs
  rw [dropWhile_id_of_none h,
    dropWhile_id_of_none fun c hc => h c (List.mem_reverse.mp hc),
    List.reverse_reverse]

/-- The pipeline's output contains no whitespace. -/
theorem noWs_normalizeL {c : Char} {x : List Char} (h : c ∈ normalizeL x) :
    isWsChar c = false := by
  unfold normalizeL at h
  exact noWs_wsGo _ _ (mem_trimWs h)

/-- The pipeline's output contains no `%3a`. -/
theorem no3a_normalizeL (x : List Char) : has3a (normalizeL x) = false := by
  unfold normalizeL wsFix
  rw [trimWs_id fun c hc => noWs_wsGo _ _ hc]
  exact wsGo_no3a _ _ (versionFix_no3a (rep3aGo_no3a _ _ le_rfl))

/-- The pipeline is a fixpoint on its own output whenever that output
contains no remaining single-digit version pattern. -/
theorem normalizeL_fixpoint (x : List Char)
    (h : hasVerPat (normalizeL x) = false) :
    normalizeL (normalizeL x) = normalizeL x := by
  set y := normalizeL x with hy
  have hlow : y.map Char.toLower = y :=
    map_toLower_eq_self fun c hc => toLower_fixed_normalizeL (hy ▸ hc)
  have h3a : has3a y = false := hy ▸ no3a_normalizeL x
  have hnws : ∀ c ∈ y, isWsChar c = false := fun c hc =>
    noWs_normalizeL (hy ▸ hc)
  show trimWs (wsFix (versionFix (rep3a (y.map Char.toLower)))) = y
  rw [hlow, show rep3a y = y from rep3aGo_id _ _ h3a, versionFix_id h,
    show wsFix y = y from wsGo_id _ _ hnws]
  exact trimWs_id hnws

/-- C3 counterexample: `normalize` is not idempotent; a second application
rewrites the chained version pattern left behind in `1.2-3`. -/
theorem cex_C3 :
    ModelMatcher.normalizeModelName
        (some (ModelMatcher.normalizeModelName (some "1-2-3"))) ≠
      ModelMatcher.normalizeModelName (some "1-2-3") := by
  decide

/-- C3 amended: `normalize` is idempotent at every string whose normalized
form contains no remaining single-digit `-`/`_` version pattern (the only
rule of the pipeline that can fire on the pipeline's own output); on other
strings a second application can differ (see the counterexample). -/
theorem thm_C3 (x : String)
    (h : hasVerPat (ModelMatcher.normalizeModelName (some x)).data = false) :
    ModelMatcher.normalizeModelName
        (some (ModelMatcher.normalizeModelName (some x))) =
      ModelMatcher.normalizeModelName (some x) := by
  by_cases hx : x = ""
  · subst hx
    rfl
  · have hinner : ModelMatcher.normalizeModelName (some x) = ⟨normalizeL x.data⟩ := by
      rw [ModelMatcher.normalizeModelName, if_neg hx]
    rw [hinner] at h ⊢
    by_cases hy : (⟨normalizeL x.data⟩ : String) = ""
    · rw [ModelMatcher.normalizeModelName, if_pos hy]
      exact hy.symm
    · rw [ModelMatcher.normalizeModelName, if_neg hy]
      exact congrArg String.mk (normalizeL_fixpoint x.data h)

/-- Witness for C3: `gpt-4-5` normalizes to `gpt-4.5`, which has no
remaining version pattern, and normalization is idempotent there. -/
theorem thm_C3_witness :
    hasVerPat (ModelMatcher.normalizeModelName (some "gpt-4-5")).data = false ∧
    ModelMatcher.normalizeModelName
        (some (ModelMatcher.normalizeModelName (some "gpt-4-5"))) =
      ModelMatcher.normalizeModelName (some "gpt-4-5") :=
  ⟨by decide, thm_C3 "gpt-4-5" (by decide)⟩

end ArenaPlus

